import Mathlib

/-
Verification of src/risk_range.py (indicator engine and risk-range builder).

The pipeline operates on pandas Series of IEEE floats where NaN marks a
missing ("undefined") value and division by zero can produce infinities.
We embed a float value as FV: either NaN, a signed infinity, or a finite
rational.  All arithmetic on FV follows IEEE semantics (NaN propagates,
inf - inf = NaN, 0 * inf = NaN, finite/0 = signed inf, 0/0 = NaN).

The transcendental functions used by the source (np.log, np.sqrt and the
EWMA decay coefficient alpha derived from the half-life) are irrational;
the embedding takes them as parameters (lg sq : Q -> Q, alpha : Q) and
theorems assume only the properties actually needed (e.g. 0 < alpha < 1,
sq q = 0 -> q = 0 on nonnegatives).
-/

inductive FV where
  | nan : FV
  | inf : Bool → FV
  | fin : ℚ → FV
deriving DecidableEq

instance : Inhabited FV := ⟨FV.nan⟩

namespace FV

/-- IEEE addition: NaN propagates; opposite infinities give NaN. -/
def add : FV → FV → FV
  | nan, _ => nan
  | _, nan => nan
  | inf a, inf b => if a = b then inf a else nan
  | inf a, fin _ => inf a
  | fin _, inf b => inf b
  | fin a, fin b => fin (a + b)

def neg : FV → FV
  | nan => nan
  | inf b => inf (!b)
  | fin q => fin (-q)

def sub (x y : FV) : FV := add x (neg y)

/-- IEEE multiplication: NaN propagates; 0 * inf = NaN; signs multiply. -/
def mul : FV → FV → FV
  | nan, _ => nan
  | _, nan => nan
  | inf a, inf b => inf (a == b)
  | inf a, fin q => if q = 0 then nan else if 0 < q then inf a else inf (!a)
  | fin q, inf a => if q = 0 then nan else if 0 < q then inf a else inf (!a)
  | fin a, fin b => fin (a * b)

/-- IEEE division: 0/0 = NaN, finite nonzero / 0 = signed infinity,
inf/inf = NaN, finite/inf = 0. -/
def div : FV → FV → FV
  | nan, _ => nan
  | _, nan => nan
  | inf _, inf _ => nan
  | inf a, fin q => if 0 ≤ q then inf a else inf (!a)
  | fin _, inf _ => fin 0
  | fin a, fin b =>
      if b = 0 then (if a = 0 then nan else if 0 < a then inf true else inf false)
      else fin (a / b)

def abs : FV → FV
  | nan => nan
  | inf _ => inf true
  | fin q => fin (if q < 0 then -q else q)

/-- Model of both pandas clip(lower=0) and np.maximum(x, 0): NaN stays NaN,
negative values (including -inf) become 0. -/
def max0 : FV → FV
  | nan => nan
  | inf true => inf true
  | inf false => fin 0
  | fin q => fin (if q < 0 then 0 else q)

/-- Model of Series.fillna(q): replaces NaN only. -/
def fillna (x : FV) (q : ℚ) : FV :=
  match x with
  | nan => fin q
  | y => y

/-- Strict greater-than as Python evaluates it: any comparison with NaN is
False. -/
def gtb : FV → FV → Bool
  | nan, _ => false
  | _, nan => false
  | inf a, inf b => a && !b
  | inf a, fin _ => a
  | fin _, inf b => !b
  | fin a, fin b => decide (b < a)

/-- Model of np.log as a lifted function: log 0 = -inf, log of a negative
is NaN, log (+inf) = +inf, finite positives go through the abstract lg. -/
def logF (lg : ℚ → ℚ) : FV → FV
  | nan => nan
  | inf true => inf true
  | inf false => nan
  | fin q => if q = 0 then inf false else if q < 0 then nan else fin (lg q)

/-- Model of the pandas zsqrt helper (used by rolling.std and ewm.std):
np.sqrt, then negative inputs are mapped to 0 instead of NaN. -/
def zsqrt (sq : ℚ → ℚ) : FV → FV
  | nan => nan
  | inf true => inf true
  | inf false => fin 0
  | fin q => if q < 0 then fin 0 else fin (sq q)

/-- Model of plain np.sqrt: negative inputs give NaN. -/
def nsqrt (sq : ℚ → ℚ) : FV → FV
  | nan => nan
  | inf true => inf true
  | inf false => nan
  | fin q => if q < 0 then nan else fin (sq q)

/-- Definedness: the value is a finite number. -/
def isFin (x : FV) : Prop := ∃ q, x = fin q

end FV

instance {ε α : Type} [DecidableEq ε] [DecidableEq α] : DecidableEq (Except ε α) :=
  fun x y =>
    match x, y with
    | Except.error a, Except.error b =>
      if h : a = b then isTrue (by rw [h])
      else isFalse (by intro hc; injection hc; contradiction)
    | Except.error _, Except.ok _ => isFalse (by intro hc; cases hc)
    | Except.ok _, Except.error _ => isFalse (by intro hc; cases hc)
    | Except.ok a, Except.ok b =>
      if h : a = b then isTrue (by rw [h])
      else isFalse (by intro hc; injection hc; contradiction)

/-- Python max of two values (used in _true_range): returns the second
argument only when it compares strictly greater, so NaN in the second slot
is discarded while NaN in the first slot survives. -/
def pymax (a b : FV) : FV := if FV.gtb b a then b else a

/-- One trading day of raw OHLCV input (df row). -/
structure PriceBar where
  date : ℤ
  open_ : ℚ
  high : ℚ
  low : ℚ
  close : ℚ
  volume : ℚ
deriving DecidableEq

instance : Inhabited PriceBar := ⟨⟨0, 0, 0, 0, 0, 0⟩⟩

/-- Output row of compute_indicators: the input bar plus derived columns. -/
structure IndicatorRow where
  date : ℤ
  open_ : ℚ
  high : ℚ
  low : ℚ
  close : ℚ
  volume : ℚ
  ret : FV
  logRet : FV
  volEwma : FV
  atr : FV
  volAtr : FV
  volGk : FV
  volZ : FV
  vovZ : FV
  roc1d : FV
  roc20d : FV
deriving DecidableEq

instance : Inhabited IndicatorRow :=
  ⟨⟨0, 0, 0, 0, 0, 0, FV.nan, FV.nan, FV.nan, FV.nan, FV.nan, FV.nan,
    FV.nan, FV.nan, FV.nan, FV.nan⟩⟩

def barAt (df : List PriceBar) (t : Nat) : PriceBar := df.getD t default

def closeF (df : List PriceBar) (t : Nat) : FV := FV.fin (barAt df t).close

/-- Series.pct_change(k): close[t]/close[t-k] - 1, NaN for the first k rows. -/
def pctChangeAt (df : List PriceBar) (k t : Nat) : FV :=
  if t < k then FV.nan
  else FV.sub (FV.div (closeF df t) (closeF df (t - k))) (FV.fin 1)

/-- Column np.log(Close).diff(): NaN at row 0. -/
def logRetAt (lg : ℚ → ℚ) (df : List PriceBar) (t : Nat) : FV :=
  if t = 0 then FV.nan
  else FV.sub (FV.logF lg (closeF df t)) (FV.logF lg (closeF df (t - 1)))

def logRetList (lg : ℚ → ℚ) (df : List PriceBar) : List FV :=
  (List.range df.length).map (logRetAt lg df)

/-- Row function _true_range with prev_close = Close.shift(1): at row 0 the
shifted close is NaN, and Python max then returns high - low. -/
def trAt (df : List PriceBar) (t : Nat) : FV :=
  let b := barAt df t
  let pc : FV := if t = 0 then FV.nan else FV.fin (barAt df (t - 1)).close
  let hl := FV.fin (b.high - b.low)
  let hc := FV.abs (FV.sub (FV.fin b.high) pc)
  let lc := FV.abs (FV.sub (FV.fin b.low) pc)
  pymax (pymax hl hc) lc

def trList (df : List PriceBar) : List FV :=
  (List.range df.length).map (trAt df)

def volumes (df : List PriceBar) : List FV :=
  df.map (fun b => FV.fin b.volume)

/-- Values of the rolling window of length n ending at position t. -/
def rwindow (xs : List FV) (n t : Nat) : List FV :=
  (xs.take (t + 1)).drop (t + 1 - n)

def sumFV (l : List FV) : FV := l.foldl FV.add (FV.fin 0)

def meanOfWindow (xs : List FV) (n t : Nat) : FV :=
  FV.div (sumFV (rwindow xs n t)) (FV.fin n)

/-- Series.rolling(n).mean() at position t.  min_periods defaults to the
window size, so every one of the n slots must be an observation (non-NaN);
a window of size 0 has no observations and yields NaN. -/
def rollingMeanAt (xs : List FV) (n t : Nat) : FV :=
  if n = 0 ∨ t + 1 < n ∨ xs.length ≤ t then FV.nan
  else if (rwindow xs n t).any (fun x => x == FV.nan) then FV.nan
  else meanOfWindow xs n t

/-- Series.rolling(n).std() at position t: sample standard deviation
(ddof = 1, hence NaN for n = 1) of a complete window, via the pandas zsqrt
of the variance. -/
def rollingStdAt (sq : ℚ → ℚ) (xs : List FV) (n t : Nat) : FV :=
  if n ≤ 1 ∨ t + 1 < n ∨ xs.length ≤ t then FV.nan
  else if (rwindow xs n t).any (fun x => x == FV.nan) then FV.nan
  else FV.zsqrt sq (FV.div
    (sumFV ((rwindow xs n t).map (fun x =>
      FV.mul (FV.sub x (meanOfWindow xs n t)) (FV.sub x (meanOfWindow xs n t)))))
    (FV.fin (n - 1 : ℕ)))

/-
EWM standard deviation, Series.ewm(halflife=hl, adjust=False).std().
This models the pandas ewmcov kernel specialized to adjust=False,
ignore_na=False, bias=False, min_periods=1 (the defaults reaching it from
the source).  alpha = 1 - 2^(-1/hl) is taken as an abstract parameter.
The weight bookkeeping (sum_wt, sum_wt2, old_wt) depends only on the
observation pattern and stays rational; mean and cov are FV.
-/
structure EwmState where
  mean : FV
  cov : FV
  sum_wt : ℚ
  sum_wt2 : ℚ
  old_wt : ℚ
  nobs : ℕ
deriving DecidableEq

def ewmInit : EwmState :=
  { mean := FV.nan, cov := FV.fin 0, sum_wt := 1, sum_wt2 := 1, old_wt := 1, nobs := 0 }

def ewmStep (alpha : ℚ) (st : EwmState) (cur : FV) : EwmState :=
  if st.mean ≠ FV.nan then
    -- decay of the accumulated weights (ignore_na = False)
    let sw := st.sum_wt * (1 - alpha)
    let sw2 := st.sum_wt2 * (1 - alpha) * (1 - alpha)
    let ow := st.old_wt * (1 - alpha)
    if cur ≠ FV.nan then
      let newMean := FV.div (FV.add (FV.mul (FV.fin ow) st.mean) (FV.mul (FV.fin alpha) cur))
        (FV.fin (ow + alpha))
      let d := FV.sub st.mean newMean
      let e := FV.sub cur newMean
      let cov := FV.div (FV.add (FV.mul (FV.fin ow) (FV.add st.cov (FV.mul d d)))
        (FV.mul (FV.fin alpha) (FV.mul e e))) (FV.fin (ow + alpha))
      -- new_wt = alpha, then adjust=False renormalization by old_wt
      { mean := newMean, cov := cov,
        sum_wt := (sw + alpha) / (ow + alpha),
        sum_wt2 := (sw2 + alpha * alpha) / ((ow + alpha) * (ow + alpha)),
        old_wt := 1, nobs := st.nobs + 1 }
    else
      { st with sum_wt := sw, sum_wt2 := sw2, old_wt := ow }
  else if cur ≠ FV.nan then
    { st with mean := cur, nobs := st.nobs + 1 }
  else st

/-- Debiased variance read off the state (bias=False): NaN before the first
observation and whenever the debiasing denominator is not positive. -/
def ewmVarOut (st : EwmState) : FV :=
  if st.nobs = 0 then FV.nan
  else if 0 < st.sum_wt * st.sum_wt - st.sum_wt2 then
    FV.mul (FV.fin ((st.sum_wt * st.sum_wt) /
      (st.sum_wt * st.sum_wt - st.sum_wt2))) st.cov
  else FV.nan

def ewmStdAt (sq : ℚ → ℚ) (alpha : ℚ) (xs : List FV) (t : Nat) : FV :=
  FV.zsqrt sq (ewmVarOut ((xs.take (t + 1)).foldl (ewmStep alpha) ewmInit))

def volEwmaAt (lg sq : ℚ → ℚ) (alpha : ℚ) (df : List PriceBar) (t : Nat) : FV :=
  ewmStdAt sq alpha (logRetList lg df) t

def volEwmaList (lg sq : ℚ → ℚ) (alpha : ℚ) (df : List PriceBar) : List FV :=
  (List.range df.length).map (volEwmaAt lg sq alpha df)

/-- Column vov = Vol_EWMA.rolling(vov_win).std(). -/
def vovList (lg sq : ℚ → ℚ) (alpha : ℚ) (df : List PriceBar) (vov_win : ℕ) : List FV :=
  (List.range df.length).map
    (fun t => rollingStdAt sq (volEwmaList lg sq alpha df) vov_win t)

/-- Garman-Klass variance of row t:
0.5 * ln(High/Low)^2 - (2 ln 2 - 1) * ln(Close/Open)^2. -/
def gkVarAt (lg : ℚ → ℚ) (df : List PriceBar) (t : Nat) : FV :=
  let b := barAt df t
  let lHL := FV.logF lg (FV.div (FV.fin b.high) (FV.fin b.low))
  let lCO := FV.logF lg (FV.div (FV.fin b.close) (FV.fin b.open_))
  FV.sub (FV.mul (FV.fin (1/2)) (FV.mul lHL lHL))
    (FV.mul (FV.fin (2 * lg 2 - 1)) (FV.mul lCO lCO))

def volGkAt (lg sq : ℚ → ℚ) (df : List PriceBar) (t : Nat) : FV :=
  FV.nsqrt sq (FV.max0 (gkVarAt lg df t))

def volZAt (sq : ℚ → ℚ) (df : List PriceBar) (vol_win t : Nat) : FV :=
  FV.div (FV.sub (FV.fin (barAt df t).volume) (rollingMeanAt (volumes df) vol_win t))
    (rollingStdAt sq (volumes df) vol_win t)

def vovZAt (lg sq : ℚ → ℚ) (alpha : ℚ) (df : List PriceBar) (vov_win t : Nat) : FV :=
  let vov := vovList lg sq alpha df vov_win
  FV.div (FV.sub (vov.getD t FV.nan) (rollingMeanAt vov vov_win t))
    (rollingStdAt sq vov vov_win t)

def indicatorRowAt (lg sq : ℚ → ℚ) (alpha : ℚ) (df : List PriceBar)
    (atr_win vol_win vov_win : ℕ) (t : Nat) : IndicatorRow :=
  let b := barAt df t
  let atr := rollingMeanAt (trList df) atr_win t
  { date := b.date, open_ := b.open_, high := b.high, low := b.low,
    close := b.close, volume := b.volume,
    ret := pctChangeAt df 1 t,
    logRet := logRetAt lg df t,
    volEwma := volEwmaAt lg sq alpha df t,
    atr := atr,
    volAtr := FV.div atr (closeF df t),
    volGk := volGkAt lg sq df t,
    volZ := volZAt sq df vol_win t,
    vovZ := vovZAt lg sq alpha df vov_win t,
    roc1d := pctChangeAt df 1 t,
    roc20d := pctChangeAt df 20 t }

/-- Embedding of compute_indicators.  The two error branches are the
validations performed by the pandas calls the source makes: ewm raises for
halflife <= 0 and rolling raises for a negative window (a zero window is
accepted by pandas and yields all-NaN columns). -/
def compute_indicators (lg sq : ℚ → ℚ) (alpha : ℚ) (df : List PriceBar)
    (hl : ℚ) (atr_win vol_win vov_win : ℤ) : Except String (List IndicatorRow) :=
  if hl ≤ 0 then Except.error "halflife must satisfy: halflife > 0"
  else if atr_win < 0 ∨ vol_win < 0 ∨ vov_win < 0 then
    Except.error "window must be an integer 0 or greater"
  else Except.ok ((List.range df.length).map
    (indicatorRowAt lg sq alpha df atr_win.toNat vol_win.toNat vov_win.toNat))

structure RiskRangeRow extends IndicatorRow where
  volCombined : FV
  widthPct : FV
  width : FV
  center : FV
  upper : FV
  lower : FV
deriving DecidableEq

instance : Inhabited RiskRangeRow :=
  ⟨⟨default, FV.nan, FV.nan, FV.nan, FV.nan, FV.nan, FV.nan⟩⟩

/-- Weight normalization step of build_risk_range: an all-zero sum falls
back to the defaults (and s is reset to 1), otherwise each weight is
divided by the sum. -/
def normWeights (w_ewm w_gk w_atr : ℚ) : ℚ × ℚ × ℚ :=
  let s := w_ewm + w_gk + w_atr
  if s = 0 then (1/2, 3/10, 1/5)
  else (w_ewm / s, w_gk / s, w_atr / s)

/-- Per-row body of build_risk_range, after weight normalization. -/
def buildRow (z we wg wa vol_adj vov_adj tilt_gamma : ℚ) (r : IndicatorRow) :
    RiskRangeRow :=
  let volCombined := FV.add (FV.add (FV.mul (FV.fin we) r.volEwma)
    (FV.mul (FV.fin wg) r.volGk)) (FV.mul (FV.fin wa) r.volAtr)
  let vol_factor := FV.add (FV.fin 1) (FV.mul (FV.fin vol_adj) (r.volZ.fillna 0))
  let vov_factor := FV.add (FV.fin 1) (FV.mul (FV.fin vov_adj) (r.vovZ.fillna 0))
  let widthPct := FV.max0 (FV.mul (FV.mul (FV.mul (FV.fin z) volCombined) vol_factor)
    vov_factor)
  let width := FV.mul widthPct (FV.fin r.close)
  let center_tilt := FV.mul (FV.mul (FV.fin tilt_gamma) (r.roc20d.fillna 0)) width
  let center := FV.add (FV.fin r.close) center_tilt
  { toIndicatorRow := r,
    volCombined := volCombined,
    widthPct := widthPct,
    width := width,
    center := center,
    upper := FV.add center width,
    lower := FV.sub center width }

/-- Embedding of build_risk_range. -/
def build_risk_range (rows : List IndicatorRow) (z w_ewm w_gk w_atr vol_adj
    vov_adj tilt_gamma : ℚ) : List RiskRangeRow :=
  let w := normWeights w_ewm w_gk w_atr
  rows.map (buildRow z w.1 w.2.1 w.2.2 vol_adj vov_adj tilt_gamma)

namespace FV

@[simp] theorem add_fin (a b : ℚ) : add (fin a) (fin b) = fin (a + b) := rfl

@[simp] theorem mul_fin (a b : ℚ) : mul (fin a) (fin b) = fin (a * b) := rfl

@[simp] theorem neg_fin (a : ℚ) : neg (fin a) = fin (-a) := rfl

@[simp] theorem sub_fin (a b : ℚ) : sub (fin a) (fin b) = fin (a - b) := by
  simp [sub, add, neg, sub_eq_add_neg]

@[simp] theorem mul_nan_left (x : FV) : mul nan x = nan := by cases x <;> rfl

@[simp] theorem mul_nan_right (x : FV) : mul x nan = nan := by cases x <;> rfl

@[simp] theorem add_nan_left (x : FV) : add nan x = nan := by cases x <;> rfl

@[simp] theorem add_nan_right (x : FV) : add x nan = nan := by cases x <;> rfl

@[simp] theorem neg_nan : neg nan = nan := rfl

@[simp] theorem sub_nan_left (x : FV) : sub nan x = nan := by cases x <;> rfl

@[simp] theorem sub_nan_right (x : FV) : sub x nan = nan := by cases x <;> rfl

@[simp] theorem max0_nan : max0 nan = nan := rfl

@[simp] theorem max0_fin (q : ℚ) : max0 (fin q) = fin (if q < 0 then 0 else q) := rfl

@[simp] theorem fillna_nan (q : ℚ) : fillna nan q = fin q := rfl

@[simp] theorem fillna_fin (a q : ℚ) : fillna (fin a) q = fin a := rfl

theorem add_fin_inv {x : FV} {a s : ℚ} (h : add (fin a) x = fin s) :
    x = fin (s - a) := by
  cases x with
  | nan => simp [add] at h
  | inf b => simp [add] at h
  | fin q =>
    simp only [add_fin, fin.injEq] at h
    simp [fin.injEq]
    linarith

theorem mul_fin_inv {x : FV} {k w : ℚ} (hk : k ≠ 0)
    (h : mul x (fin k) = fin w) : x = fin (w / k) := by
  cases x with
  | nan => simp [mul] at h
  | inf b => simp [mul, hk] at h; split at h <;> simp at h
  | fin q =>
    simp only [mul_fin, fin.injEq] at h
    subst h
    simp [fin.injEq]
    field_simp

theorem max0_fin_nonneg {x : FV} {w : ℚ} (h : max0 x = fin w) : 0 ≤ w := by
  cases x with
  | nan => simp [max0] at h
  | inf b =>
    cases b with
    | true => simp [max0] at h
    | false =>
      simp only [max0, fin.injEq] at h
      exact le_of_eq h
  | fin q =>
    simp only [max0_fin, fin.injEq] at h
    subst h
    split
    · exact le_refl 0
    · linarith [not_lt.mp (by assumption : ¬ q < 0)]

end FV

theorem buildRow_volCombined (z we wg wa va vv tg : ℚ) (r : IndicatorRow) :
    (buildRow z we wg wa va vv tg r).volCombined =
      FV.add (FV.add (FV.mul (FV.fin we) r.volEwma) (FV.mul (FV.fin wg) r.volGk))
        (FV.mul (FV.fin wa) r.volAtr) := rfl

theorem buildRow_widthPct (z we wg wa va vv tg : ℚ) (r : IndicatorRow) :
    (buildRow z we wg wa va vv tg r).widthPct =
      FV.max0 (FV.mul (FV.mul (FV.mul (FV.fin z)
        (buildRow z we wg wa va vv tg r).volCombined)
        (FV.add (FV.fin 1) (FV.mul (FV.fin va) (r.volZ.fillna 0))))
        (FV.add (FV.fin 1) (FV.mul (FV.fin vv) (r.vovZ.fillna 0)))) := rfl

theorem buildRow_width (z we wg wa va vv tg : ℚ) (r : IndicatorRow) :
    (buildRow z we wg wa va vv tg r).width =
      FV.mul (buildRow z we wg wa va vv tg r).widthPct (FV.fin r.close) := rfl

theorem buildRow_center (z we wg wa va vv tg : ℚ) (r : IndicatorRow) :
    (buildRow z we wg wa va vv tg r).center =
      FV.add (FV.fin r.close) (FV.mul (FV.mul (FV.fin tg) (r.roc20d.fillna 0))
        (buildRow z we wg wa va vv tg r).width) := rfl

theorem buildRow_upper (z we wg wa va vv tg : ℚ) (r : IndicatorRow) :
    (buildRow z we wg wa va vv tg r).upper =
      FV.add (buildRow z we wg wa va vv tg r).center
        (buildRow z we wg wa va vv tg r).width := rfl

theorem buildRow_lower (z we wg wa va vv tg : ℚ) (r : IndicatorRow) :
    (buildRow z we wg wa va vv tg r).lower =
      FV.sub (buildRow z we wg wa va vv tg r).center
        (buildRow z we wg wa va vv tg r).width := rfl

theorem buildRow_toRow (z we wg wa va vv tg : ℚ) (r : IndicatorRow) :
    (buildRow z we wg wa va vv tg r).toIndicatorRow = r := rfl

/-- Any output row of build_risk_range is buildRow applied (with the
normalized weights) to an input row, inheriting that row's fields. -/
theorem mem_build_risk_range {rows : List IndicatorRow}
    {z w1 w2 w3 va vv tg : ℚ} {orow : RiskRangeRow}
    (h : orow ∈ build_risk_range rows z w1 w2 w3 va vv tg) :
    ∃ r ∈ rows, orow = buildRow z (normWeights w1 w2 w3).1
      (normWeights w1 w2 w3).2.1 (normWeights w1 w2 w3).2.2 va vv tg r := by
  unfold build_risk_range at h
  obtain ⟨r, hr, hb⟩ := List.mem_map.mp h
  exact ⟨r, hr, hb.symm⟩

/-- C1: on success, compute_indicators returns exactly one output row per
input bar, in the same date order; no row is dropped or reordered. -/
theorem C1_compute_indicators_same_length_and_dates
    (lg sq : ℚ → ℚ) (alpha hl : ℚ) (df : List PriceBar)
    (atr_win vol_win vov_win : ℤ) (rows : List IndicatorRow)
    (h : compute_indicators lg sq alpha df hl atr_win vol_win vov_win =
      Except.ok rows) :
    rows.length = df.length ∧
      rows.map (fun r => r.date) = df.map (fun b => b.date) := by
  unfold compute_indicators at h
  split at h
  · exact absurd h (by simp)
  split at h
  · exact absurd h (by simp)
  injection h with h
  subst h
  constructor
  · simp
  · apply List.ext_get
    · simp
    · intro n h1 h2
      simp only [List.get_map, List.get_range]
      show (barAt df n).date = _
      rw [barAt, List.getD_eq_get?, List.get?_eq_get (by simpa using h2)]
      rfl

def dfW : List PriceBar :=
  [⟨0, 1, 2, 1, 1, 5⟩, ⟨1, 1, 2, 1, 1, 5⟩]

def rowsW : List IndicatorRow :=
  ((compute_indicators (fun _ => 0) (fun _ => 0) (1/2) dfW 10 14 2 2).toOption).getD []

/-- Witness for C1 at a concrete two-bar series. -/
theorem C1_witness :
    rowsW.length = dfW.length ∧
      rowsW.map (fun r => r.date) = dfW.map (fun b => b.date) :=
  C1_compute_indicators_same_length_and_dates (fun _ => 0) (fun _ => 0)
    (1/2) 10 dfW 14 2 2 rowsW (by with_unfolding_all decide)

/-- C9: every defined widthPct in the output of build_risk_range is
nonnegative, enforced by the clip floor at zero. -/
theorem C9_widthPct_nonneg (rows : List IndicatorRow)
    (z w1 w2 w3 va vv tg : ℚ) :
    ∀ orow ∈ build_risk_range rows z w1 w2 w3 va vv tg,
      ∀ w : ℚ, orow.widthPct = FV.fin w → 0 ≤ w := by
  intro orow ho w hw
  obtain ⟨r, _, rfl⟩ := mem_build_risk_range ho
  rw [buildRow_widthPct] at hw
  exact FV.max0_fin_nonneg hw

def rowF : IndicatorRow :=
  { (default : IndicatorRow) with
    volEwma := FV.fin 0, volGk := FV.fin 0, volAtr := FV.fin 0 }

def orowF : RiskRangeRow :=
  (build_risk_range [rowF] 1 1 1 1 0 0 0).getD 0 default

/-- Witness for C9 at a concrete input row. -/
theorem C9_witness :
    orowF ∈ build_risk_range [rowF] 1 1 1 1 0 0 0 ∧
      orowF.widthPct = FV.fin 0 ∧ (0 : ℚ) ≤ 0 :=
  ⟨by with_unfolding_all decide, by with_unfolding_all decide,
    C9_widthPct_nonneg [rowF] 1 1 1 1 0 0 0 orowF (by with_unfolding_all decide)
      0 (by with_unfolding_all decide)⟩

theorem buildRow_volEwma (z we wg wa va vv tg : ℚ) (r : IndicatorRow) :
    (buildRow z we wg wa va vv tg r).volEwma = r.volEwma := rfl

theorem buildRow_volGk (z we wg wa va vv tg : ℚ) (r : IndicatorRow) :
    (buildRow z we wg wa va vv tg r).volGk = r.volGk := rfl

theorem buildRow_volAtr (z we wg wa va vv tg : ℚ) (r : IndicatorRow) :
    (buildRow z we wg wa va vv tg r).volAtr = r.volAtr := rfl

theorem buildRow_volZ (z we wg wa va vv tg : ℚ) (r : IndicatorRow) :
    (buildRow z we wg wa va vv tg r).volZ = r.volZ := rfl

theorem buildRow_vovZ (z we wg wa va vv tg : ℚ) (r : IndicatorRow) :
    (buildRow z we wg wa va vv tg r).vovZ = r.vovZ := rfl

theorem buildRow_roc20d (z we wg wa va vv tg : ℚ) (r : IndicatorRow) :
    (buildRow z we wg wa va vv tg r).roc20d = r.roc20d := rfl

theorem buildRow_close (z we wg wa va vv tg : ℚ) (r : IndicatorRow) :
    (buildRow z we wg wa va vv tg r).close = r.close := rfl

/-- C2: in every output row of build_risk_range whose inputs are all
defined, upper - lower = 2 * width and width = widthPct * close, as exact
equations. -/
theorem C2_band_width_identities (rows : List IndicatorRow)
    (z w1 w2 w3 va vv tg : ℚ) :
    ∀ orow ∈ build_risk_range rows z w1 w2 w3 va vv tg,
      orow.volEwma.isFin → orow.volGk.isFin → orow.volAtr.isFin →
      orow.volZ.isFin → orow.vovZ.isFin → orow.roc20d.isFin →
      FV.sub orow.upper orow.lower = FV.mul (FV.fin 2) orow.width ∧
        orow.width = FV.mul orow.widthPct (FV.fin orow.close) := by
  intro orow ho hE hG hA hZ hV hR
  obtain ⟨r, _, rfl⟩ := mem_build_risk_range ho
  simp only [buildRow_volEwma, buildRow_volGk, buildRow_volAtr, buildRow_volZ,
    buildRow_vovZ, buildRow_roc20d] at hE hG hA hZ hV hR
  obtain ⟨qe, hE⟩ := hE
  obtain ⟨qg, hG⟩ := hG
  obtain ⟨qa, hA⟩ := hA
  obtain ⟨qz, hZ⟩ := hZ
  obtain ⟨qv, hV⟩ := hV
  obtain ⟨qr, hR⟩ := hR
  refine ⟨?_, buildRow_width _ _ _ _ _ _ _ _⟩
  simp only [buildRow_upper, buildRow_lower, buildRow_center, buildRow_width,
    buildRow_widthPct, buildRow_volCombined, buildRow_close, hE, hG, hA, hZ,
    hV, hR, FV.fillna_fin, FV.mul_fin, FV.add_fin, FV.max0_fin, FV.sub_fin]
  congr 1
  ring

def rowG : IndicatorRow :=
  ⟨0, 1, 2, 1, 1, 5, FV.fin 0, FV.fin 0, FV.fin 0, FV.fin 0, FV.fin 0,
    FV.fin 0, FV.fin 0, FV.fin 0, FV.fin 0, FV.fin 0⟩

def orowG : RiskRangeRow :=
  (build_risk_range [rowG] 1 1 1 1 1 1 1).getD 0 default

/-- Witness for C2 at a concrete fully defined row. -/
theorem C2_witness :
    FV.sub orowG.upper orowG.lower = FV.mul (FV.fin 2) orowG.width ∧
      orowG.width = FV.mul orowG.widthPct (FV.fin orowG.close) :=
  C2_band_width_identities [rowG] 1 1 1 1 1 1 1 orowG
    (by with_unfolding_all decide) ⟨0, by with_unfolding_all decide⟩
    ⟨0, by with_unfolding_all decide⟩ ⟨0, by with_unfolding_all decide⟩
    ⟨0, by with_unfolding_all decide⟩ ⟨0, by with_unfolding_all decide⟩
    ⟨0, by with_unfolding_all decide⟩

/-- C3: calling build_risk_range with all-zero weights is identical to
calling it with the default weights 0.5/0.3/0.2, and for any weights of
nonzero sum the effective (normalized) weights used in the blend sum to 1. -/
theorem C3_zero_weight_fallback (rows : List IndicatorRow) (z va vv tg : ℚ) :
    build_risk_range rows z 0 0 0 va vv tg =
      build_risk_range rows z (1/2) (3/10) (1/5) va vv tg ∧
    ∀ w1 w2 w3 : ℚ, w1 + w2 + w3 ≠ 0 →
      (normWeights w1 w2 w3).1 + (normWeights w1 w2 w3).2.1 +
        (normWeights w1 w2 w3).2.2 = 1 := by
  constructor
  · have h : normWeights 0 0 0 = normWeights (1/2) (3/10) (1/5) := by
      norm_num [normWeights]
    unfold build_risk_range
    rw [h]
  · intro w1 w2 w3 hs
    unfold normWeights
    rw [if_neg hs]
    field_simp

/-- Witness for C3: the fallback equality at a concrete call, and the
normalization sum at concrete nonzero weights. -/
theorem C3_witness :
    build_risk_range [rowG] 1 0 0 0 0 0 0 =
      build_risk_range [rowG] 1 (1/2) (3/10) (1/5) 0 0 0 ∧
    (normWeights 1 1 2).1 + (normWeights 1 1 2).2.1 +
      (normWeights 1 1 2).2.2 = 1 :=
  ⟨(C3_zero_weight_fallback [rowG] 1 0 0 0).1,
    (C3_zero_weight_fallback [rowG] 1 0 0 0).2 1 1 2 (by norm_num)⟩

/-- C4: in every output row where volCombined is undefined, widthPct,
width, center, upper and lower are all undefined as well; warm-up
undefinedness is not converted to zero for these fields. -/
theorem C4_undefined_volCombined_propagates (rows : List IndicatorRow)
    (z w1 w2 w3 va vv tg : ℚ) :
    ∀ orow ∈ build_risk_range rows z w1 w2 w3 va vv tg,
      orow.volCombined = FV.nan →
        orow.widthPct = FV.nan ∧ orow.width = FV.nan ∧
          orow.center = FV.nan ∧ orow.upper = FV.nan ∧ orow.lower = FV.nan := by
  intro orow ho h
  obtain ⟨r, _, rfl⟩ := mem_build_risk_range ho
  have h1 : (buildRow z (normWeights w1 w2 w3).1 (normWeights w1 w2 w3).2.1
      (normWeights w1 w2 w3).2.2 va vv tg r).widthPct = FV.nan := by
    rw [buildRow_widthPct, h]
    simp
  have h2 : (buildRow z (normWeights w1 w2 w3).1 (normWeights w1 w2 w3).2.1
      (normWeights w1 w2 w3).2.2 va vv tg r).width = FV.nan := by
    rw [buildRow_width, h1]
    simp
  have h3 : (buildRow z (normWeights w1 w2 w3).1 (normWeights w1 w2 w3).2.1
      (normWeights w1 w2 w3).2.2 va vv tg r).center = FV.nan := by
    rw [buildRow_center, h2]
    simp
  have h4 : (buildRow z (normWeights w1 w2 w3).1 (normWeights w1 w2 w3).2.1
      (normWeights w1 w2 w3).2.2 va vv tg r).upper = FV.nan := by
    rw [buildRow_upper, h3]
    simp
  have h5 : (buildRow z (normWeights w1 w2 w3).1 (normWeights w1 w2 w3).2.1
      (normWeights w1 w2 w3).2.2 va vv tg r).lower = FV.nan := by
    rw [buildRow_lower, h3]
    simp
  exact ⟨h1, h2, h3, h4, h5⟩

def orowD : RiskRangeRow :=
  (build_risk_range [default] 1 1 1 1 1 1 1).getD 0 default

/-- Witness for C4 at a concrete warm-up row (all indicator fields NaN). -/
theorem C4_witness :
    orowD.widthPct = FV.nan ∧ orowD.width = FV.nan ∧ orowD.center = FV.nan ∧
      orowD.upper = FV.nan ∧ orowD.lower = FV.nan :=
  C4_undefined_volCombined_propagates [default] 1 1 1 1 1 1 1 orowD
    (by with_unfolding_all decide) (by with_unfolding_all decide)

/-- C8: in any output row with volZ and vovZ both exactly zero and a
defined volCombined, widthPct equals z times volCombined exactly (z and
volCombined nonnegative, per the documented input domain). -/
theorem C8_neutral_regime (rows : List IndicatorRow)
    (z w1 w2 w3 va vv tg : ℚ) :
    ∀ orow ∈ build_risk_range rows z w1 w2 w3 va vv tg,
      orow.volZ = FV.fin 0 → orow.vovZ = FV.fin 0 →
      ∀ v : ℚ, orow.volCombined = FV.fin v → 0 ≤ z → 0 ≤ v →
        orow.widthPct = FV.mul (FV.fin z) orow.volCombined := by
  intro orow ho hZ hV v hv hz hv0
  obtain ⟨r, _, rfl⟩ := mem_build_risk_range ho
  simp only [buildRow_volZ, buildRow_vovZ] at hZ hV
  rw [buildRow_widthPct, hv, hZ, hV]
  simp only [FV.fillna_fin, FV.mul_fin, FV.add_fin, FV.max0_fin, mul_zero,
    add_zero, mul_one]
  rw [if_neg (not_lt.mpr (mul_nonneg hz hv0))]

/-- Witness for C8 at a concrete row with neutral regime z-scores. -/
theorem C8_witness :
    orowG.widthPct = FV.mul (FV.fin 1) orowG.volCombined :=
  C8_neutral_regime [rowG] 1 1 1 1 1 1 1 orowG (by with_unfolding_all decide)
    (by with_unfolding_all decide) (by with_unfolding_all decide) 0
    (by with_unfolding_all decide) (by norm_num) (by norm_num)

/-- C10: in every output row where lower, center and upper are all defined
and close is positive, the band is ordered: lower <= center <= upper. -/
theorem C10_band_ordered (rows : List IndicatorRow)
    (z w1 w2 w3 va vv tg : ℚ) :
    ∀ orow ∈ build_risk_range rows z w1 w2 w3 va vv tg,
      ∀ l c u : ℚ, orow.lower = FV.fin l → orow.center = FV.fin c →
        orow.upper = FV.fin u → 0 < orow.close → l ≤ c ∧ c ≤ u := by
  intro orow ho l c u hl hc hu hclose
  obtain ⟨r, _, rfl⟩ := mem_build_risk_range ho
  rw [buildRow_close] at hclose
  rw [buildRow_upper, hc] at hu
  have hw := FV.add_fin_inv hu
  rw [buildRow_width] at hw
  have hwp := FV.mul_fin_inv (ne_of_gt hclose) hw
  rw [buildRow_widthPct] at hwp
  have hnn := FV.max0_fin_nonneg hwp
  have hwidth_nn : 0 ≤ u - c := by
    have := mul_nonneg hnn (le_of_lt hclose)
    rwa [div_mul_cancel₀ _ (ne_of_gt hclose)] at this
  rw [buildRow_lower, hc, buildRow_width, buildRow_widthPct] at hl
  rw [hwp] at hl
  simp only [FV.mul_fin, FV.sub_fin, FV.fin.injEq] at hl
  constructor
  · rw [← hl]
    have : (u - c) / r.close * r.close = u - c :=
      div_mul_cancel₀ _ (ne_of_gt hclose)
    rw [this]
    linarith
  · linarith

/-- Witness for C10 at a concrete row producing a defined band. -/
theorem C10_witness : (1 : ℚ) ≤ 1 ∧ (1 : ℚ) ≤ 1 :=
  C10_band_ordered [rowG] 1 1 1 1 1 1 1 orowG (by with_unfolding_all decide)
    1 1 1 (by with_unfolding_all decide) (by with_unfolding_all decide)
    (by with_unfolding_all decide) (by with_unfolding_all decide)

/-- Counterexample to C7: a non-positive (zero) volume window does not
fail fast (compute_indicators succeeds), and a negative confidence z does
not fail fast either: build_risk_range returns a defined, silently clipped
widthPct of 0 instead of an error. -/
theorem C7_counterexample :
    (compute_indicators (fun _ => 0) (fun _ => 0) (1/2) dfW 1 14 0 20).toOption.isSome
      = true ∧
    ((build_risk_range [rowG] (-1) 1 1 1 0 0 0).getD 0 default).widthPct =
      FV.fin 0 := by
  constructor
  · with_unfolding_all decide
  · with_unfolding_all decide

/-- C7 amended: the core fails fast exactly for halfLife <= 0 (the ewm
halflife check) and for strictly negative window sizes (the rolling window
check).  A window size of zero and a negative z are accepted: zero windows
degrade to all-undefined columns, and build_risk_range is total for every
z, returning one output row per input row. -/
theorem C7_config_error_behavior (lg sq : ℚ → ℚ) (alpha hl : ℚ)
    (df : List PriceBar) (atr_win vol_win vov_win : ℤ) :
    ((∃ e, compute_indicators lg sq alpha df hl atr_win vol_win vov_win =
        Except.error e) ↔
      (hl ≤ 0 ∨ atr_win < 0 ∨ vol_win < 0 ∨ vov_win < 0)) ∧
    ∀ (rows : List IndicatorRow) (z w1 w2 w3 va vv tg : ℚ),
      (build_risk_range rows z w1 w2 w3 va vv tg).length = rows.length := by
  constructor
  · constructor
    · rintro ⟨e, he⟩
      unfold compute_indicators at he
      split at he
      · left; assumption
      · split at he
        · right; assumption
        · exact absurd he (by simp)
    · intro h
      unfold compute_indicators
      by_cases h1 : hl ≤ 0
      · rw [if_pos h1]
        exact ⟨_, rfl⟩
      · rw [if_neg h1]
        have h2 : atr_win < 0 ∨ vol_win < 0 ∨ vov_win < 0 := by tauto
        rw [if_pos h2]
        exact ⟨_, rfl⟩
  · intro rows z w1 w2 w3 va vv tg
    unfold build_risk_range
    simp

/-- Witness for the amended C7: halfLife 0 errors, and a negative-z call
still yields a full-length result. -/
theorem C7_witness :
    (∃ e, compute_indicators (fun _ => 0) (fun _ => 0) (1/2) dfW 0 14 20 20 =
      Except.error e) ∧
    (build_risk_range [rowG] (-1) 1 1 1 0 0 0).length = 1 :=
  ⟨(C7_config_error_behavior (fun _ => 0) (fun _ => 0) (1/2) 0 dfW 14 20 20).1.mpr
      (Or.inl (by norm_num)),
    (C7_config_error_behavior (fun _ => 0) (fun _ => 0) (1/2) 0 dfW 14 20 20).2
      [rowG] (-1) 1 1 1 0 0 0⟩

theorem mem_of_mem_rwindow {xs : List FV} {n t : Nat} {x : FV}
    (h : x ∈ rwindow xs n t) : x ∈ xs :=
  List.mem_of_mem_take (List.mem_of_mem_drop h)

theorem exists_ratList {l : List FV} (h : ∀ x ∈ l, ∃ q, x = FV.fin q) :
    ∃ qs : List ℚ, l = qs.map FV.fin := by
  induction l with
  | nil => exact ⟨[], rfl⟩
  | cons x l ih =>
    obtain ⟨q, hq⟩ := h x (List.mem_cons_self x l)
    obtain ⟨qs, hqs⟩ := ih (fun y hy => h y (List.mem_cons_of_mem x hy))
    exact ⟨q :: qs, by rw [hq, hqs]; rfl⟩

theorem foldl_add_map_fin (qs : List ℚ) :
    ∀ a : ℚ, (qs.map FV.fin).foldl FV.add (FV.fin a) = FV.fin (a + qs.sum) := by
  induction qs with
  | nil => intro a; simp
  | cons q qs ih =>
    intro a
    simp only [List.map_cons, List.foldl_cons, FV.add_fin, List.sum_cons, ih]
    ring_nf

theorem sumFV_map_fin (qs : List ℚ) : sumFV (qs.map FV.fin) = FV.fin qs.sum := by
  simpa using foldl_add_map_fin qs 0

theorem sum_sq_nonneg (m : ℚ) (qs : List ℚ) :
    0 ≤ (qs.map (fun q => (q - m) * (q - m))).sum := by
  induction qs with
  | nil => simp
  | cons q qs ih =>
    simp only [List.map_cons, List.sum_cons]
    have := mul_self_nonneg (q - m)
    linarith

theorem sum_sq_zero {m : ℚ} {qs : List ℚ}
    (h : (qs.map (fun q => (q - m) * (q - m))).sum = 0) :
    ∀ q ∈ qs, q = m := by
  induction qs with
  | nil => simp
  | cons a qs ih =>
    simp only [List.map_cons, List.sum_cons] at h
    have h1 := mul_self_nonneg (a - m)
    have h2 := sum_sq_nonneg m qs
    intro q hq
    rcases List.mem_cons.mp hq with rfl | hq2
    · have : (q - m) * (q - m) = 0 := by linarith
      have := mul_self_eq_zero.mp this
      linarith [sub_eq_zero.mp this]
    · exact ih (by linarith) q hq2

theorem rwindow_length {xs : List FV} {n t : Nat} (h1 : n ≤ t + 1)
    (h2 : t < xs.length) : (rwindow xs n t).length = n := by
  simp only [rwindow, List.length_drop, List.length_take]
  omega

theorem rwindow_getD_self_mem {xs : List FV} {n t : Nat} (h0 : 1 ≤ n)
    (h1 : n ≤ t + 1) (h2 : t < xs.length) :
    xs.getD t FV.nan ∈ rwindow xs n t := by
  have hg : (rwindow xs n t).get? (n - 1) = xs.get? t := by
    rw [rwindow, List.get?_drop, List.get?_take (by omega)]
    congr 1
    omega
  have ht : xs.get? t = some (xs.get ⟨t, h2⟩) := List.get?_eq_get h2
  have hd : xs.getD t FV.nan = xs.get ⟨t, h2⟩ := by
    rw [List.getD_eq_get?, ht]
    rfl
  rw [hd]
  exact List.get?_mem (by rw [hg, ht])

/-- Key fact behind C5: if a rolling sample standard deviation evaluates to
exactly fin 0, the whole window is constant, so the current element equals
the rolling mean.  The hypothesis on sq is the only property of sqrt used:
it vanishes on nonnegatives only at zero. -/
theorem rollingStd_zero_num (sq : ℚ → ℚ) (hsq : ∀ q, 0 ≤ q → sq q = 0 → q = 0)
    (xs : List FV) (n t : Nat)
    (hnn : ∀ x ∈ xs, x = FV.nan ∨ ∃ q, x = FV.fin q)
    (h : rollingStdAt sq xs n t = FV.fin 0) :
    ∃ m : ℚ, rollingMeanAt xs n t = FV.fin m ∧ xs.getD t FV.nan = FV.fin m := by
  unfold rollingStdAt at h
  split at h
  · exact absurd h (by simp)
  rename_i hg
  push_neg at hg
  obtain ⟨hn1, hnt, hlen⟩ := hg
  split at h
  · exact absurd h (by simp)
  rename_i hany
  have hwfin : ∀ x ∈ rwindow xs n t, ∃ q, x = FV.fin q := by
    intro x hx
    rcases hnn x (mem_of_mem_rwindow hx) with hnan | hfin
    · exact absurd (List.any_eq_true.mpr ⟨x, hx, by rw [hnan]; rfl⟩) hany
    · exact hfin
  obtain ⟨qs, hqs⟩ := exists_ratList hwfin
  have hnq : ((n : ℚ)) ≠ 0 := Nat.cast_ne_zero.mpr (by omega)
  have hmean : meanOfWindow xs n t = FV.fin (qs.sum / n) := by
    rw [meanOfWindow, hqs, sumFV_map_fin]
    simp [FV.div, hnq]
  set m : ℚ := qs.sum / n with hm
  have hdev : (rwindow xs n t).map (fun x =>
      FV.mul (FV.sub x (meanOfWindow xs n t)) (FV.sub x (meanOfWindow xs n t))) =
      (qs.map (fun q => (q - m) * (q - m))).map FV.fin := by
    rw [hmean, hqs, List.map_map, List.map_map]
    apply List.map_congr_left
    intro q _
    simp
  rw [hdev, sumFV_map_fin] at h
  have hn1q : ((n - 1 : ℕ) : ℚ) ≠ 0 := Nat.cast_ne_zero.mpr (by omega)
  rw [show FV.div (FV.fin ((qs.map (fun q => (q - m) * (q - m))).sum))
      (FV.fin ((n - 1 : ℕ) : ℚ)) =
      FV.fin ((qs.map (fun q => (q - m) * (q - m))).sum / ((n - 1 : ℕ) : ℚ)) by
    simp [FV.div, hn1q]] at h
  have hVnn : 0 ≤ (qs.map (fun q => (q - m) * (q - m))).sum / ((n - 1 : ℕ) : ℚ) :=
    div_nonneg (sum_sq_nonneg m qs) (Nat.cast_nonneg _)
  rw [show FV.zsqrt sq (FV.fin ((qs.map (fun q => (q - m) * (q - m))).sum /
      ((n - 1 : ℕ) : ℚ))) = FV.fin (sq ((qs.map (fun q => (q - m) * (q - m))).sum /
      ((n - 1 : ℕ) : ℚ))) by
    simp [FV.zsqrt, not_lt.mpr hVnn]] at h
  simp only [FV.fin.injEq] at h
  have hV0 := hsq _ hVnn h
  have hS0 : (qs.map (fun q => (q - m) * (q - m))).sum = 0 := by
    rcases div_eq_zero_iff.mp hV0 with h0 | h0
    · exact h0
    · exact absurd h0 hn1q
  have hall := sum_sq_zero hS0
  have hself := rwindow_getD_self_mem (by omega) hnt hlen
  rw [hqs] at hself
  obtain ⟨q0, hq0m, hq0⟩ := List.mem_map.mp hself
  refine ⟨m, ?_, ?_⟩
  · rw [rollingMeanAt, if_neg (by push_neg; exact ⟨by omega, hnt, hlen⟩),
      if_neg hany, hmean]
  · rw [← hq0, hall q0 hq0m]

/-- A value that is not an infinity: NaN or finite.  All series produced
by the pipeline from positive closes satisfy this. -/
def nanOrFin (x : FV) : Prop := x = FV.nan ∨ ∃ q, x = FV.fin q

theorem FV.div_fin {a b : ℚ} (hb : b ≠ 0) :
    FV.div (FV.fin a) (FV.fin b) = FV.fin (a / b) := by
  simp [FV.div, hb]

theorem FV.div_nan_right (x : FV) : FV.div x FV.nan = FV.nan := by
  cases x <;> rfl

theorem zsqrt_nf (sq : ℚ → ℚ) {x : FV} (h : nanOrFin x) :
    nanOrFin (FV.zsqrt sq x) := by
  rcases h with h | ⟨q, h⟩
  · rw [h]; exact Or.inl rfl
  · rw [h, FV.zsqrt]
    split
    · exact Or.inr ⟨0, rfl⟩
    · exact Or.inr ⟨sq q, rfl⟩

theorem ewmStep_nf {alpha : ℚ} (h0 : 0 < alpha) (h1 : alpha < 1) {st : EwmState}
    (hc : ∃ c, st.cov = FV.fin c) (hm : nanOrFin st.mean) (hw : 0 < st.old_wt)
    {x : FV} (hx : nanOrFin x) :
    (∃ c, (ewmStep alpha st x).cov = FV.fin c) ∧
      nanOrFin (ewmStep alpha st x).mean ∧ 0 < (ewmStep alpha st x).old_wt := by
  obtain ⟨mean, cov, sw, sw2, ow, nobs⟩ := st
  simp only at hc hm hw
  obtain ⟨c, hcf⟩ := hc
  subst hcf
  rcases hm with hmn | ⟨m, hmf⟩
  · subst hmn
    rcases hx with hxn | ⟨q, hxf⟩
    · subst hxn
      simp only [ewmStep, ne_eq, not_true_eq_false, if_false, ite_self]
      exact ⟨⟨c, rfl⟩, Or.inl rfl, hw⟩
    · subst hxf
      simp only [ewmStep, ne_eq, not_true_eq_false, if_false,
        reduceCtorEq, not_false_eq_true, if_true]
      exact ⟨⟨c, rfl⟩, Or.inr ⟨q, rfl⟩, hw⟩
  · subst hmf
    have how : (0 : ℚ) < ow * (1 - alpha) := mul_pos hw (by linarith)
    have hden : ow * (1 - alpha) + alpha ≠ 0 := ne_of_gt (by linarith)
    rcases hx with hxn | ⟨q, hxf⟩
    · subst hxn
      simp only [ewmStep, ne_eq, reduceCtorEq, not_false_eq_true, if_true,
        not_true_eq_false, if_false]
      exact ⟨⟨c, rfl⟩, Or.inr ⟨m, rfl⟩, how⟩
    · subst hxf
      simp only [ewmStep, ne_eq, reduceCtorEq, not_false_eq_true, if_true]
      refine ⟨?_, ?_, by norm_num⟩
      · refine ⟨((ow * (1 - alpha)) * (c +
          (m - (ow * (1 - alpha) * m + alpha * q) / (ow * (1 - alpha) + alpha)) *
          (m - (ow * (1 - alpha) * m + alpha * q) / (ow * (1 - alpha) + alpha))) +
          alpha * ((q - (ow * (1 - alpha) * m + alpha * q) / (ow * (1 - alpha) + alpha)) *
          (q - (ow * (1 - alpha) * m + alpha * q) / (ow * (1 - alpha) + alpha)))) /
          (ow * (1 - alpha) + alpha), ?_⟩
        simp only [FV.mul_fin, FV.add_fin, FV.div_fin hden, FV.sub_fin]
      · refine Or.inr ⟨(ow * (1 - alpha) * m + alpha * q) / (ow * (1 - alpha) + alpha), ?_⟩
        simp only [FV.mul_fin, FV.add_fin, FV.div_fin hden]

theorem foldl_ewm_nf {alpha : ℚ} (h0 : 0 < alpha) (h1 : alpha < 1) :
    ∀ (l : List FV) (st : EwmState), (∀ x ∈ l, nanOrFin x) →
      (∃ c, st.cov = FV.fin c) → nanOrFin st.mean → 0 < st.old_wt →
      (∃ c, (l.foldl (ewmStep alpha) st).cov = FV.fin c) ∧
        nanOrFin (l.foldl (ewmStep alpha) st).mean ∧
        0 < (l.foldl (ewmStep alpha) st).old_wt := by
  intro l
  induction l with
  | nil => intro st _ hc hm hw; exact ⟨hc, hm, hw⟩
  | cons x l ih =>
    intro st hl hc hm hw
    obtain ⟨hc2, hm2, hw2⟩ := ewmStep_nf h0 h1 hc hm hw (hl x (List.mem_cons_self x l))
    exact ih _ (fun y hy => hl y (List.mem_cons_of_mem x hy)) hc2 hm2 hw2

theorem ewmVarOut_nf {st : EwmState} (hc : ∃ c, st.cov = FV.fin c) :
    nanOrFin (ewmVarOut st) := by
  obtain ⟨c, hcf⟩ := hc
  rw [ewmVarOut]
  split
  · exact Or.inl rfl
  split
  · rw [hcf]; exact Or.inr ⟨_, rfl⟩
  · exact Or.inl rfl

theorem ewmStdAt_nf (sq : ℚ → ℚ) {alpha : ℚ} (h0 : 0 < alpha) (h1 : alpha < 1)
    (xs : List FV) (hxs : ∀ x ∈ xs, nanOrFin x) (t : Nat) :
    nanOrFin (ewmStdAt sq alpha xs t) := by
  have htake : ∀ x ∈ xs.take (t + 1), nanOrFin x :=
    fun x hx => hxs x (List.mem_of_mem_take hx)
  obtain ⟨hc, _, _⟩ := foldl_ewm_nf h0 h1 (xs.take (t + 1)) ewmInit htake
    ⟨0, rfl⟩ (Or.inl rfl) (by norm_num [ewmInit])
  exact zsqrt_nf sq (ewmVarOut_nf hc)

theorem barAt_mem {df : List PriceBar} {t : Nat} (ht : t < df.length) :
    barAt df t ∈ df := by
  rw [barAt, List.getD_eq_get?, List.get?_eq_get ht]
  exact List.get_mem df t ht

theorem logF_pos {lg : ℚ → ℚ} {c : ℚ} (hc : 0 < c) :
    FV.logF lg (FV.fin c) = FV.fin (lg c) := by
  rw [FV.logF]
  rw [if_neg (ne_of_gt hc), if_neg (not_lt.mpr (le_of_lt hc))]

theorem logRetList_nf {lg : ℚ → ℚ} {df : List PriceBar}
    (hpos : ∀ b ∈ df, 0 < b.close) :
    ∀ x ∈ logRetList lg df, nanOrFin x := by
  intro x hx
  obtain ⟨t, htr, rfl⟩ := List.mem_map.mp hx
  have ht : t < df.length := List.mem_range.mp htr
  rw [logRetAt]
  split
  · exact Or.inl rfl
  · have h1 : 0 < (barAt df t).close := hpos _ (barAt_mem ht)
    have h2 : 0 < (barAt df (t - 1)).close := hpos _ (barAt_mem (by omega))
    rw [closeF, closeF, logF_pos h1, logF_pos h2, FV.sub_fin]
    exact Or.inr ⟨_, rfl⟩

theorem rollingStdAt_nf (sq : ℚ → ℚ) (xs : List FV) (n t : Nat)
    (hxs : ∀ x ∈ xs, nanOrFin x) : nanOrFin (rollingStdAt sq xs n t) := by
  rw [rollingStdAt]
  split
  · exact Or.inl rfl
  rename_i hg
  push_neg at hg
  obtain ⟨hn1, _, _⟩ := hg
  split
  · exact Or.inl rfl
  rename_i hany
  have hwfin : ∀ x ∈ rwindow xs n t, ∃ q, x = FV.fin q := by
    intro x hx
    rcases hxs x (mem_of_mem_rwindow hx) with hnan | hfin
    · exact absurd (List.any_eq_true.mpr ⟨x, hx, by rw [hnan]; rfl⟩) hany
    · exact hfin
  obtain ⟨qs, hqs⟩ := exists_ratList hwfin
  have hnq : ((n : ℚ)) ≠ 0 := Nat.cast_ne_zero.mpr (by omega)
  have hmean : meanOfWindow xs n t = FV.fin (qs.sum / n) := by
    rw [meanOfWindow, hqs, sumFV_map_fin, FV.div_fin hnq]
  have hdev : (rwindow xs n t).map (fun x =>
      FV.mul (FV.sub x (meanOfWindow xs n t)) (FV.sub x (meanOfWindow xs n t))) =
      (qs.map (fun q => (q - qs.sum / n) * (q - qs.sum / n))).map FV.fin := by
    rw [hmean, hqs, List.map_map, List.map_map]
    apply List.map_congr_left
    intro q _
    simp
  have hn1q : ((n - 1 : ℕ) : ℚ) ≠ 0 := Nat.cast_ne_zero.mpr (by omega)
  rw [hdev, sumFV_map_fin, FV.div_fin hn1q]
  exact zsqrt_nf sq (Or.inr ⟨_, rfl⟩)

theorem volEwmaList_nf {lg sq : ℚ → ℚ} {alpha : ℚ} (h0 : 0 < alpha)
    (h1 : alpha < 1) {df : List PriceBar} (hpos : ∀ b ∈ df, 0 < b.close) :
    ∀ x ∈ volEwmaList lg sq alpha df, nanOrFin x := by
  intro x hx
  obtain ⟨t, _, rfl⟩ := List.mem_map.mp hx
  exact ewmStdAt_nf sq h0 h1 _ (logRetList_nf hpos) t

theorem vovList_nf {lg sq : ℚ → ℚ} {alpha : ℚ} (h0 : 0 < alpha)
    (h1 : alpha < 1) {df : List PriceBar} (hpos : ∀ b ∈ df, 0 < b.close)
    (n : ℕ) : ∀ x ∈ vovList lg sq alpha df n, nanOrFin x := by
  intro x hx
  obtain ⟨t, _, rfl⟩ := List.mem_map.mp hx
  exact rollingStdAt_nf sq _ n t (volEwmaList_nf h0 h1 hpos)

theorem rows_getD {lg sq : ℚ → ℚ} {alpha hl : ℚ} {df : List PriceBar}
    {atr_win vol_win vov_win : ℤ} {rows : List IndicatorRow}
    (hok : compute_indicators lg sq alpha df hl atr_win vol_win vov_win =
      Except.ok rows)
    {t : Nat} (ht : t < df.length) :
    rows.getD t default =
      indicatorRowAt lg sq alpha df atr_win.toNat vol_win.toNat vov_win.toNat t := by
  unfold compute_indicators at hok
  split at hok
  · exact absurd hok (by simp)
  split at hok
  · exact absurd hok (by simp)
  injection hok with hok
  subst hok
  rw [List.getD_eq_get?, List.get?_map, List.get?_range ht]
  rfl

theorem indicatorRowAt_volZ (lg sq : ℚ → ℚ) (alpha : ℚ) (df : List PriceBar)
    (aw vw ww t : ℕ) :
    (indicatorRowAt lg sq alpha df aw vw ww t).volZ = volZAt sq df vw t := rfl

theorem indicatorRowAt_vovZ (lg sq : ℚ → ℚ) (alpha : ℚ) (df : List PriceBar)
    (aw vw ww t : ℕ) :
    (indicatorRowAt lg sq alpha df aw vw ww t).vovZ =
      vovZAt lg sq alpha df ww t := rfl

theorem indicatorRowAt_volEwma (lg sq : ℚ → ℚ) (alpha : ℚ) (df : List PriceBar)
    (aw vw ww t : ℕ) :
    (indicatorRowAt lg sq alpha df aw vw ww t).volEwma =
      volEwmaAt lg sq alpha df t := rfl

theorem vovZAt_eq (lg sq : ℚ → ℚ) (alpha : ℚ) (df : List PriceBar) (n t : ℕ) :
    vovZAt lg sq alpha df n t =
      FV.div (FV.sub ((vovList lg sq alpha df n).getD t FV.nan)
        (rollingMeanAt (vovList lg sq alpha df n) n t))
        (rollingStdAt sq (vovList lg sq alpha df n) n t) := rfl

theorem volumes_getD {df : List PriceBar} {t : Nat} (ht : t < df.length) :
    (volumes df).getD t FV.nan = FV.fin (barAt df t).volume := by
  rw [volumes, List.getD_eq_get?, List.get?_map, List.get?_eq_get ht]
  rw [barAt, List.getD_eq_get?, List.get?_eq_get ht]
  rfl

theorem volumes_nf (df : List PriceBar) : ∀ x ∈ volumes df, nanOrFin x := by
  intro x hx
  obtain ⟨b, _, rfl⟩ := List.mem_map.mp hx
  exact Or.inr ⟨_, rfl⟩

/-- C5: the volume z-score is undefined (NaN, not an infinity) whenever the
volume window is incomplete or the rolling std of volume is exactly zero;
and the vol-of-vol z-score is undefined whenever its rolling std is exactly
zero.  In the zero-std case the whole window is constant, so the division
is 0/0, which the float semantics sends to NaN rather than infinity. -/
theorem C5_zscores_undefined_on_incomplete_or_zero_std
    (lg sq : ℚ → ℚ) (alpha hl : ℚ) (df : List PriceBar)
    (atr_win vol_win vov_win : ℤ) (rows : List IndicatorRow) (t : Nat)
    (halpha : 0 < alpha ∧ alpha < 1)
    (hsq : ∀ q, 0 ≤ q → sq q = 0 → q = 0)
    (hpos : ∀ b ∈ df, 0 < b.close)
    (hok : compute_indicators lg sq alpha df hl atr_win vol_win vov_win =
      Except.ok rows)
    (ht : t < df.length) :
    (t + 1 < vol_win.toNat → (rows.getD t default).volZ = FV.nan) ∧
    (rollingStdAt sq (volumes df) vol_win.toNat t = FV.fin 0 →
      (rows.getD t default).volZ = FV.nan) ∧
    (rollingStdAt sq (vovList lg sq alpha df vov_win.toNat) vov_win.toNat t =
        FV.fin 0 →
      (rows.getD t default).vovZ = FV.nan) := by
  rw [rows_getD hok ht, indicatorRowAt_volZ, indicatorRowAt_vovZ]
  refine ⟨?_, ?_, ?_⟩
  · intro hlt
    have hstd : rollingStdAt sq (volumes df) vol_win.toNat t = FV.nan := by
      rw [rollingStdAt, if_pos (Or.inr (Or.inl hlt))]
    rw [volZAt, hstd, FV.div_nan_right]
  · intro hstd
    obtain ⟨m, hmean, hget⟩ :=
      rollingStd_zero_num sq hsq _ _ _ (volumes_nf df) hstd
    have hv : (barAt df t).volume = m := by
      have h2 := volumes_getD ht
      rw [h2] at hget
      exact FV.fin.inj hget
    rw [volZAt, hmean, hstd, hv, FV.sub_fin]
    simp [FV.div]
  · intro hstd
    obtain ⟨m, hmean, hget⟩ := rollingStd_zero_num sq hsq _ _ _
      (vovList_nf halpha.1 halpha.2 hpos vov_win.toNat) hstd
    rw [vovZAt_eq, hmean, hstd, hget, FV.sub_fin]
    simp [FV.div]

def lg5 : ℚ → ℚ := fun _ => 0

def sq5 : ℚ → ℚ := fun q => if q = 0 then 0 else 1

theorem sq5_zero : ∀ q : ℚ, 0 ≤ q → sq5 q = 0 → q = 0 := by
  intro q _ h
  by_cases h0 : q = 0
  · exact h0
  · simp [sq5, h0] at h

def df5 : List PriceBar :=
  [⟨0, 1, 2, 1, 1, 5⟩, ⟨1, 1, 2, 1, 1, 5⟩, ⟨2, 1, 2, 1, 1, 5⟩,
   ⟨3, 1, 2, 1, 1, 5⟩, ⟨4, 1, 2, 1, 1, 5⟩]

def rows5 : List IndicatorRow :=
  ((compute_indicators lg5 sq5 (1/2) df5 1 14 2 2).toOption).getD []

/-- Witness for C5 on a five-bar constant series: both rolling stds are
exactly zero at t = 4 and both z-scores come out NaN. -/
theorem C5_witness :
    rollingStdAt sq5 (volumes df5) 2 4 = FV.fin 0 ∧
    rollingStdAt sq5 (vovList lg5 sq5 (1/2) df5 2) 2 4 = FV.fin 0 ∧
    (rows5.getD 4 default).volZ = FV.nan ∧
    (rows5.getD 4 default).vovZ = FV.nan := by
  have h := C5_zscores_undefined_on_incomplete_or_zero_std lg5 sq5 (1/2) 1 df5
    14 2 2 rows5 4 ⟨by norm_num, by norm_num⟩ sq5_zero
    (by with_unfolding_all decide) (by with_unfolding_all decide)
    (by with_unfolding_all decide)
  exact ⟨by with_unfolding_all decide, by with_unfolding_all decide,
    h.2.1 (by with_unfolding_all decide), h.2.2 (by with_unfolding_all decide)⟩

theorem logRetAt_fin {lg : ℚ → ℚ} {df : List PriceBar}
    (hpos : ∀ b ∈ df, 0 < b.close) {s : ℕ} (h1 : 1 ≤ s) (h2 : s < df.length) :
    ∃ q, logRetAt lg df s = FV.fin q := by
  rw [logRetAt, if_neg (by omega)]
  have ha : 0 < (barAt df s).close := hpos _ (barAt_mem h2)
  have hb : 0 < (barAt df (s - 1)).close := hpos _ (barAt_mem (by omega))
  rw [closeF, closeF, logF_pos ha, logF_pos hb, FV.sub_fin]
  exact ⟨_, rfl⟩

theorem logRetList_take {lg : ℚ → ℚ} {df : List PriceBar} {t : ℕ}
    (ht : t < df.length) :
    (logRetList lg df).take (t + 1) =
      FV.nan :: (List.range t).map (fun i => logRetAt lg df (i + 1)) := by
  rw [logRetList, ← List.map_take, List.take_range,
    Nat.min_eq_left (by omega), List.range_succ_eq_map, List.map_cons,
    List.map_map]
  rfl

theorem ewmStep_init_nan (alpha : ℚ) : ewmStep alpha ewmInit FV.nan = ewmInit := by
  with_unfolding_all rfl

theorem ewmStep_first (alpha q : ℚ) :
    ewmStep alpha ewmInit (FV.fin q) =
      { mean := FV.fin q, cov := FV.fin 0, sum_wt := 1, sum_wt2 := 1,
        old_wt := 1, nobs := 1 } := by
  with_unfolding_all rfl

/-- Invariant of the EWM state after at least one observation with the
adjust=False renormalization: unit total weight, and a squared-weight sum
in (0, 1]. -/
def EwmReady (st : EwmState) : Prop :=
  (∃ m, st.mean = FV.fin m) ∧ (∃ c, st.cov = FV.fin c) ∧
    st.sum_wt = 1 ∧ st.old_wt = 1 ∧ 0 < st.sum_wt2 ∧ st.sum_wt2 ≤ 1 ∧
    1 ≤ st.nobs

theorem ewmStep_ready {alpha : ℚ} (h0 : 0 < alpha) (h1 : alpha < 1)
    {st : EwmState} (hst : EwmReady st) (q : ℚ) :
    EwmReady (ewmStep alpha st (FV.fin q)) ∧
      (ewmStep alpha st (FV.fin q)).sum_wt2 ≤ 1 - 2 * alpha * (1 - alpha) := by
  obtain ⟨mean, cov, sw, sw2, ow, nobs⟩ := st
  obtain ⟨⟨m, hm⟩, ⟨c, hc⟩, hsw, how, hs2pos, hs2le, hnobs⟩ := hst
  simp only at hm hc hsw how hs2pos hs2le hnobs
  subst hm hc hsw how
  have h1a : (0 : ℚ) < 1 - alpha := by linarith
  have hd : (1 : ℚ) * (1 - alpha) + alpha = 1 := by ring
  have hden : (1 : ℚ) * (1 - alpha) + alpha ≠ 0 := by rw [hd]; norm_num
  simp only [ewmStep, ne_eq, reduceCtorEq, not_false_eq_true, if_true]
  constructor
  · refine ⟨?_, ?_, ?_, rfl, ?_, ?_, by show 1 ≤ nobs + 1; omega⟩
    · simp only [FV.mul_fin, FV.add_fin, FV.div_fin hden]
      exact ⟨_, rfl⟩
    · simp only [FV.mul_fin, FV.add_fin, FV.sub_fin, FV.div_fin hden]
      exact ⟨_, rfl⟩
    · simp only
      rw [hd]
      norm_num
    · simp only
      rw [hd]
      norm_num
      nlinarith [mul_pos (mul_pos hs2pos h1a) h1a, mul_pos h0 h0]
    · simp only
      rw [hd]
      norm_num
      nlinarith [mul_nonneg (mul_nonneg (sub_nonneg.mpr hs2le) (le_of_lt h1a))
        (le_of_lt h1a), mul_pos h0 h1a]
  · rw [hd]
    norm_num
    nlinarith [mul_nonneg (mul_nonneg (sub_nonneg.mpr hs2le) (le_of_lt h1a))
      (le_of_lt h1a)]

theorem foldl_ewm_ready {alpha : ℚ} (h0 : 0 < alpha) (h1 : alpha < 1)
    (l : List FV) (hfin : ∀ x ∈ l, ∃ q, x = FV.fin q) :
    (l ≠ [] → EwmReady (l.foldl (ewmStep alpha) ewmInit)) ∧
      (2 ≤ l.length → (l.foldl (ewmStep alpha) ewmInit).sum_wt2 ≤
        1 - 2 * alpha * (1 - alpha)) := by
  induction l using List.reverseRecOn with
  | nil => exact ⟨fun h => absurd rfl h, by simp⟩
  | append_singleton l x ih =>
    obtain ⟨q, rfl⟩ := hfin x (by simp)
    rw [List.foldl_append, List.foldl_cons, List.foldl_nil]
    rcases eq_or_ne l [] with rfl | hne
    · simp only [List.foldl_nil]
      rw [ewmStep_first]
      refine ⟨fun _ => ⟨⟨q, rfl⟩, ⟨0, rfl⟩, rfl, rfl, by norm_num, by norm_num,
        by norm_num⟩, fun h2 => ?_⟩
      simp at h2
    · have hready := (ih (fun y hy => hfin y (by simp [hy]))).1 hne
      obtain ⟨hQ, hb⟩ := ewmStep_ready h0 h1 hready q
      exact ⟨fun _ => hQ, fun _ => hb⟩

/-- Counterexample to C6: on a concrete five-bar series of positive closes,
the first log return (index 1) is defined, yet Vol_EWMA is NaN at index 1:
the debiased EWM standard deviation needs two observations, so it is not
defined from the first return onward. -/
theorem C6_counterexample :
    (rows5.getD 1 default).logRet = FV.fin 0 ∧
      (rows5.getD 1 default).volEwma = FV.nan := by
  constructor
  · with_unfolding_all decide
  · with_unfolding_all decide

/-- C6 amended: for positive closes and decay 0 < alpha < 1, Vol_EWMA is
still NaN at index 1 (a single observation leaves the bias correction
denominator at zero) and is defined at every index t >= 2, the second
defined return onward, using all available history. -/
theorem C6_volEwma_defined_from_second_return
    (lg sq : ℚ → ℚ) (alpha hl : ℚ) (df : List PriceBar)
    (atr_win vol_win vov_win : ℤ) (rows : List IndicatorRow)
    (halpha : 0 < alpha ∧ alpha < 1)
    (hpos : ∀ b ∈ df, 0 < b.close)
    (hok : compute_indicators lg sq alpha df hl atr_win vol_win vov_win =
      Except.ok rows) :
    (1 < df.length → (rows.getD 1 default).volEwma = FV.nan) ∧
      (∀ t, 2 ≤ t → t < df.length →
        ∃ q, (rows.getD t default).volEwma = FV.fin q) := by
  constructor
  · intro hlen
    rw [rows_getD hok hlen, indicatorRowAt_volEwma]
    unfold volEwmaAt ewmStdAt
    rw [logRetList_take hlen]
    obtain ⟨r, hr⟩ : ∃ q, logRetAt lg df 1 = FV.fin q :=
      logRetAt_fin hpos (le_refl 1) hlen
    rw [show List.range 1 = [0] from rfl, List.map_cons, List.map_nil]
    norm_num
    rw [hr, ewmStep_init_nan, ewmStep_first, ewmVarOut]
    norm_num
    rfl
  · intro t h2 hlt
    rw [rows_getD hok hlt, indicatorRowAt_volEwma]
    unfold volEwmaAt ewmStdAt
    rw [logRetList_take hlt, List.foldl_cons, ewmStep_init_nan]
    have hfin : ∀ x ∈ (List.range t).map (fun i => logRetAt lg df (i + 1)),
        ∃ q, x = FV.fin q := by
      intro x hx
      obtain ⟨i, hi, rfl⟩ := List.mem_map.mp hx
      exact logRetAt_fin hpos (by omega) (by
        have := List.mem_range.mp hi
        omega)
    have hlen2 : 2 ≤ ((List.range t).map (fun i => logRetAt lg df (i + 1))).length := by
      simp [h2]
    have hne : (List.range t).map (fun i => logRetAt lg df (i + 1)) ≠ [] := by
      intro hc
      rw [hc] at hlen2
      simp at hlen2
    obtain ⟨hready, hbound⟩ := foldl_ewm_ready halpha.1 halpha.2 _ hfin
    obtain ⟨⟨m, hm⟩, ⟨c, hc⟩, hsw, _, _, _, hnobs⟩ := hready hne
    have hb := hbound hlen2
    set st := ((List.range t).map (fun i => logRetAt lg df (i + 1))).foldl
      (ewmStep alpha) ewmInit with hst
    have hden : 0 < st.sum_wt * st.sum_wt - st.sum_wt2 := by
      rw [hsw]
      nlinarith [mul_pos halpha.1 (show (0:ℚ) < 1 - alpha by linarith [halpha.2])]
    rw [ewmVarOut, if_neg (by omega), if_pos hden, hc, FV.mul_fin, FV.zsqrt]
    split
    · exact ⟨0, rfl⟩
    · exact ⟨_, rfl⟩

/-- Witness for the amended C6: on the five-bar constant series, Vol_EWMA
is NaN at index 1 and defined at index 2. -/
theorem C6_witness :
    (rows5.getD 1 default).volEwma = FV.nan ∧
      ∃ q, (rows5.getD 2 default).volEwma = FV.fin q :=
  ⟨(C6_volEwma_defined_from_second_return lg5 sq5 (1/2) 1 df5 14 2 2 rows5
      ⟨by norm_num, by norm_num⟩ (by with_unfolding_all decide)
      (by with_unfolding_all decide)).1 (by with_unfolding_all decide),
    (C6_volEwma_defined_from_second_return lg5 sq5 (1/2) 1 df5 14 2 2 rows5
      ⟨by norm_num, by norm_num⟩ (by with_unfolding_all decide)
      (by with_unfolding_all decide)).2 2 (le_refl 2)
      (by with_unfolding_all decide)⟩
